import Mathlib

/-!
Verification of the decode-and-resolve pipeline of the Shiny-Stash-Live-Map
repository (src/source/main.cpp), shallowly embedded in Lean 4.

Byte buffers are modelled as functions `Nat → Nat` (byte value at index);
machine integers are `Nat`/`Int` with explicit reductions modulo `2^w`.
The `double` coordinates of the map transform are modelled as exact
rational arithmetic (`ℚ`).
-/

set_option maxRecDepth 4000

-- ============================================================
-- Constants (main.cpp lines 23-29, 161-164)
-- ============================================================

def TERMINATOR_HASH : Nat := 0xCBF29CE484222645

def SHINY_STASH_SIZE : Nat := 4960

def ENTRY_SIZE : Nat := 0x1F0

def MAX_SLOTS : Nat := SHINY_STASH_SIZE / ENTRY_SIZE

def PA9_DATA_OFFSET : Nat := 0x08

def PA9_SPECIES_OFF : Nat := 0x08

def LCRNG_MULT : Nat := 0x41C64E6D

def LCRNG_ADD : Nat := 0x00006073

def PKX_HEADER : Nat := 8

def PKX_BLOCK : Nat := 80

-- ============================================================
-- Little-endian readers over byte buffers
-- ============================================================

/-- Read a little-endian 16-bit value: `memcpy(&v, data+i, 2)`. -/
def readU16 (d : Nat → Nat) (i : Nat) : Nat :=
  d i + 256 * d (i + 1)

/-- Read a little-endian 32-bit value: `memcpy(&ec, data, 4)`. -/
def readU32 (d : Nat → Nat) (i : Nat) : Nat :=
  d i + 256 * d (i + 1) + 65536 * d (i + 2) + 16777216 * d (i + 3)

/-- Read a little-endian 64-bit value: `memcpy(&hash, buf+i, 8)`. -/
def readU64 (d : Nat → Nat) (i : Nat) : Nat :=
  d i + 256 * d (i + 1) + 65536 * d (i + 2) + 16777216 * d (i + 3) +
    4294967296 * d (i + 4) + 1099511627776 * d (i + 5) +
    281474976710656 * d (i + 6) + 72057594037927936 * d (i + 7)

-- ============================================================
-- PKX decryption (main.cpp lines 161-196)
-- ============================================================

/-- One step of the LCRNG: `seed = seed * LCRNG_MULT + LCRNG_ADD` on u32. -/
def lcrngNext (s : Nat) : Nat :=
  (s * LCRNG_MULT + LCRNG_ADD) % 4294967296

/-- Iterate the LCRNG `n` times from seed `s`. -/
def lcrngIter (s : Nat) : Nat → Nat
  | 0 => s
  | n + 1 => lcrngNext (lcrngIter s n)

/-- Keystream word `w`: `(u16)(seed >> 16)` after `w + 1` LCRNG advances. -/
def keyWord (seed w : Nat) : Nat :=
  (lcrngIter seed (w + 1) / 65536) % 65536

/-- The block-shuffle permutation table (main.cpp lines 166-174),
32 rows of 4 entries; rows 24-31 repeat rows 0-7. -/
def g_blockPos : List Nat :=
  [0,1,2,3, 0,1,3,2, 0,2,1,3, 0,3,1,2, 0,2,3,1, 0,3,2,1,
   1,0,2,3, 1,0,3,2, 2,0,1,3, 3,0,1,2, 2,0,3,1, 3,0,2,1,
   1,2,0,3, 1,3,0,2, 2,1,0,3, 3,1,0,2, 2,3,0,1, 3,2,0,1,
   1,2,3,0, 1,3,2,0, 2,1,3,0, 3,1,2,0, 2,3,1,0, 3,2,1,0,
   0,1,2,3, 0,1,3,2, 0,2,1,3, 0,3,1,2, 0,2,3,1, 0,3,2,1,
   1,0,2,3, 1,0,3,2]

/-- Entry `b` of the permutation row selected by `sv`: `g_blockPos[sv*4+b]`. -/
def blockOrder (sv b : Nat) : Nat :=
  g_blockPos.getD (sv * 4 + b) 0

/-- The permutation selector: `(ec >> 13) & 31` (bits 13-17 of the seed). -/
def svOf (ec : Nat) : Nat :=
  (ec / 8192) % 32

/-- Phase 1 of `decryptPA9`: XOR the keystream into `count` 16-bit words
starting at byte 8, little-endian per word. Bytes outside the region are
untouched. -/
def xorWords (seed count : Nat) (d : Nat → Nat) : Nat → Nat := fun i =>
  if 8 ≤ i ∧ i < 8 + 2 * count then
    if (i - 8) % 2 = 0 then
      (readU16 d (8 + 2 * ((i - 8) / 2)) ^^^ keyWord seed ((i - 8) / 2)) % 256
    else
      (readU16 d (8 + 2 * ((i - 8) / 2)) ^^^ keyWord seed ((i - 8) / 2)) / 256
  else d i

/-- Phase 2 of `decryptPA9`: reassemble the four 80-byte blocks after the
8-byte header; destination block `b` is copied from source block
`order[b]` of the selected permutation row. Bytes 0-7 and 328+ untouched. -/
def unshuffle (sv : Nat) (d : Nat → Nat) : Nat → Nat := fun i =>
  if 8 ≤ i ∧ i < 328 then
    d (8 + blockOrder sv ((i - 8) / 80) * 80 + (i - 8) % 80)
  else d i

/-- Decryption routine `decryptPA9(data, len)` (main.cpp lines 176-196): read the 4-byte seed,
XOR-decrypt `(len-8)/2` words from byte 8, then unshuffle the four
post-header blocks using the selector from bits 13-17 of the seed. -/
def decryptPA9 (d : Nat → Nat) (len : Nat) : Nat → Nat :=
  let ec := readU32 d 0
  unshuffle (svOf ec) (xorWords ec ((len - 8) / 2) d)

/-- The inverse of a permutation row: the `b` with `blockOrder sv b = k`. -/
def invBlockOrder (sv k : Nat) : Nat :=
  ((List.range 4).filter (fun b => blockOrder sv b = k)).headD 0

/-- Modelled from the spec: the forward shuffle of the encryption direction
(absent from the source, described in spec §4.2 and the round-trip
property of §8): original block `b` is stored at shuffled position
`order[b]`. -/
def shuffleBlocks (sv : Nat) (d : Nat → Nat) : Nat → Nat := fun i =>
  if 8 ≤ i ∧ i < 328 then
    d (8 + invBlockOrder sv ((i - 8) / 80) * 80 + (i - 8) % 80)
  else d i

/-- Modelled from the spec: the encryption corresponding to `decryptPA9` —
shuffle the four post-header blocks by the permutation selected by
bits 13-17 of the seed, then XOR the same LCRNG keystream. -/
def encryptPA9 (d : Nat → Nat) (len : Nat) : Nat → Nat :=
  let ec := readU32 d 0
  xorWords ec ((len - 8) / 2) (shuffleBlocks (svOf ec) d)

-- ============================================================
-- Gen9 species converter (main.cpp lines 202-214)
-- ============================================================

/-- The signed per-offset delta table `g_t9` (main.cpp lines 202-208). -/
def g_t9 : List Int :=
  [65,-1,-1,-1,-1,31,31,47,47,29,29,53,31,31,46,44,30,30,-7,-7,-7,13,13,
   -2,-2,23,23,24,-21,-21,27,27,47,47,47,26,14,-33,-33,-33,-17,-17,3,-29,
   12,-12,-31,-31,-31,3,3,-24,-24,-44,-44,-30,-30,-28,-28,23,23,6,7,29,8,
   3,4,4,20,4,23,6,3,3,4,-1,13,9,7,5,7,9,9,-43,-43,-43,-68,-68,-68,-58,
   -58,-25,-29,-31,6,-1,6,0,0,0,3,3,4,2,3,3,-5,-12,-12]

/-- Conversion of an `int` to `u16` (modular reduction). -/
def u16ofInt (z : Int) : Nat :=
  (z % 65536).toNat

/-- Species converter `getNational9` (main.cpp lines 210-214): identity outside the window
starting at 917 of length `g_t9.length`; inside it, add the table delta
and truncate to u16. -/
def getNational9 (raw : Nat) : Nat :=
  if raw < 917 ∨ g_t9.length ≤ raw - 917 then raw
  else u16ofInt ((raw : Int) + g_t9.getD (raw - 917) 0)

-- ============================================================
-- Data types (main.cpp lines 101-112)
-- ============================================================

/-- A geographic catalog entry (`SpawnerEntry`): identity hash, world
coordinates, map selector and label. Coordinates modelled as ℚ. -/
structure SpawnerEntry where
  hash : Nat
  x : ℚ
  y : ℚ
  z : ℚ
  mapIdx : Nat
  location : String
deriving DecidableEq, Repr

/-- A decoded stash record (`ShinyEntry`): identity hash, internal species
ordinal, canonical national-dex id. -/
structure ShinyEntry where
  hash : Nat
  speciesInternal : Nat
  nationalDex : Nat
deriving DecidableEq, Repr

/-- Catalog lookup `findSpawner` (main.cpp lines 389-393): first catalog entry with the
given hash, in catalog order. -/
def findSpawner (spawners : List SpawnerEntry) (h : Nat) : Option SpawnerEntry :=
  spawners.find? (fun sp => sp.hash == h)

-- ============================================================
-- Stash block decoder (main.cpp lines 473-495)
-- ============================================================

/-- The species ordinal of the slot at byte offset `i`: copy the 0x158-byte
sub-block at `i + 8`, decrypt it, and read the u16 at offset 8. -/
def specAt (buf : Nat → Nat) (i : Nat) : Nat :=
  readU16 (decryptPA9 (fun j => buf (i + PA9_DATA_OFFSET + j)) 0x158) PA9_SPECIES_OFF

/-- The decode loop of `readShinyStash` (main.cpp lines 473-495).
`n` is the number of slots remaining (the loop guard
`i + ENTRY_SIZE <= SHINY_STASH_SIZE` admits exactly `MAX_SLOTS = 10`
iterations from `i = 0` at stride `ENTRY_SIZE`); `i` is the byte offset of
the current slot; `acc` is `g_entries` so far. -/
def decodeSlots (spawners : List SpawnerEntry) (buf : Nat → Nat) :
    Nat → Nat → List ShinyEntry → List ShinyEntry
  | 0, _, acc => acc
  | n + 1, i, acc =>
    let hash := readU64 buf i
    if hash = 0 ∨ hash = TERMINATOR_HASH then acc
    else
      let specInt := specAt buf i
      if specInt = 0 then decodeSlots spawners buf n (i + ENTRY_SIZE) acc
      else
        let ndex := getNational9 specInt
        if (findSpawner spawners hash).isNone then
          decodeSlots spawners buf n (i + ENTRY_SIZE) acc
        else if acc.any (fun e => e.hash == hash) then
          decodeSlots spawners buf n (i + ENTRY_SIZE) acc
        else
          decodeSlots spawners buf n (i + ENTRY_SIZE) (acc ++ [⟨hash, specInt, ndex⟩])

/-- The decode pass of `readShinyStash`, as a function of the catalog and
the raw 4960-byte snapshot block. -/
def readShinyStash (spawners : List SpawnerEntry) (buf : Nat → Nat) : List ShinyEntry :=
  decodeSlots spawners buf MAX_SLOTS 0 []

-- ============================================================
-- Specification-side decompositions of the decode pass
-- ============================================================

/-- The slot-ordered record candidates of a raw block: stop at the first
slot whose hash is 0 or the terminator, skip slots with a zero species
ordinal, no catalog filter and no deduplication. -/
def rawSlots (buf : Nat → Nat) : Nat → Nat → List ShinyEntry
  | 0, _ => []
  | n + 1, i =>
    let hash := readU64 buf i
    if hash = 0 ∨ hash = TERMINATOR_HASH then []
    else
      let specInt := specAt buf i
      if specInt = 0 then rawSlots buf n (i + ENTRY_SIZE)
      else ⟨hash, specInt, getNational9 specInt⟩ :: rawSlots buf n (i + ENTRY_SIZE)

/-- The slot-ordered candidates that pass the catalog (spawner) filter. -/
def eligibleRecords (spawners : List SpawnerEntry) (buf : Nat → Nat) : List ShinyEntry :=
  (rawSlots buf MAX_SLOTS 0).filter (fun r => (findSpawner spawners r.hash).isSome)

/-- First-occurrence deduplication by hash, appending to `acc`. -/
def dedupByHash : List ShinyEntry → List ShinyEntry → List ShinyEntry
  | acc, [] => acc
  | acc, r :: rs =>
    if acc.any (fun e => e.hash == r.hash) then dedupByHash acc rs
    else dedupByHash (acc ++ [r]) rs

/-- Find the first record with a given hash. -/
def findHash (l : List ShinyEntry) (h : Nat) : Option ShinyEntry :=
  l.find? (fun e => e.hash == h)

/-- Left-biased choice on optional records. -/
def orFind (a b : Option ShinyEntry) : Option ShinyEntry :=
  match a with
  | some e => some e
  | none => b

-- ============================================================
-- State-threading variant of the decode pass (for the frame claim)
-- ============================================================

/-- The decode loop with the raw block threaded as state: each slot copies
its sub-block (`memcpy(pa9, &buf[i+8], 0x158)`) into a transient buffer and
decrypts the copy in place; the raw block is never written. Returns the
record list together with the final raw-block state. -/
def decodeSlotsSt (spawners : List SpawnerEntry) :
    Nat → (Nat → Nat) → Nat → List ShinyEntry → List ShinyEntry × (Nat → Nat)
  | 0, buf, _, acc => (acc, buf)
  | n + 1, buf, i, acc =>
    let hash := readU64 buf i
    if hash = 0 ∨ hash = TERMINATOR_HASH then (acc, buf)
    else
      let pa9 := fun j => buf (i + PA9_DATA_OFFSET + j)
      let pa9dec := decryptPA9 pa9 0x158
      let specInt := readU16 pa9dec PA9_SPECIES_OFF
      if specInt = 0 then decodeSlotsSt spawners n buf (i + ENTRY_SIZE) acc
      else
        let ndex := getNational9 specInt
        if (findSpawner spawners hash).isNone then
          decodeSlotsSt spawners n buf (i + ENTRY_SIZE) acc
        else if acc.any (fun e => e.hash == hash) then
          decodeSlotsSt spawners n buf (i + ENTRY_SIZE) acc
        else
          decodeSlotsSt spawners n buf (i + ENTRY_SIZE) (acc ++ [⟨hash, specInt, ndex⟩])

/-- The decode pass with the raw block threaded as state. -/
def readShinyStashSt (spawners : List SpawnerEntry) (buf : Nat → Nat) :
    List ShinyEntry × (Nat → Nat) :=
  decodeSlotsSt spawners MAX_SLOTS buf 0 []

-- ============================================================
-- Map transform (main.cpp lines 71-91), doubles modelled as ℚ
-- ============================================================

/-- Structure `MapTransform` (main.cpp lines 71-84). -/
structure MapTransform where
  texW : ℚ
  texH : ℚ
  rangeX : ℚ
  rangeZ : ℚ
  scaleX : ℚ
  scaleZ : ℚ
  dirX : ℚ
  dirZ : ℚ
  offsetX : ℚ
  offsetZ : ℚ
deriving DecidableEq, Repr

/-- Method `MapTransform::convertX`. -/
def MapTransform.convertX (m : MapTransform) (x : ℚ) : ℚ :=
  m.texW / 2 + m.dirX * ((m.rangeX / m.scaleX) * (x + m.offsetX))

/-- Method `MapTransform::convertZ`. -/
def MapTransform.convertZ (m : MapTransform) (z : ℚ) : ℚ :=
  m.texH / 2 + m.dirZ * ((m.rangeZ / m.scaleZ) * (z + m.offsetZ))

/-- The static per-map parameter table `g_transforms` (main.cpp lines 86-91). -/
def g_transforms : List MapTransform :=
  [⟨4096, 4096, 3940, 3940, 1000, 1000, -1, -1, 500, 500⟩,
   ⟨2160, 2160, 1662, 2041, 1662 / 10.291021, 2041 / 10.291021, -1, -1, -3, -80⟩,
   ⟨2160, 2160, 1364, 1975, 1364 / 6.2, 1975 / 6.2, 1, 1, 1, 146⟩,
   ⟨2160, 2160, 1521, 1966, 1521 / 16.714285, 1966 / 16.714285, 1, 1, 39, 45⟩]

/-- The projection formula exactly as the spec states it (§4.5):
`pixelX = imageWidth/2 + directionX * (rangeX/scaleX) * (worldX + offsetX)`. -/
def specProjectX (m : MapTransform) (x : ℚ) : ℚ :=
  m.texW / 2 + m.dirX * (m.rangeX / m.scaleX) * (x + m.offsetX)

/-- The projection formula exactly as the spec states it (§4.5), Z axis. -/
def specProjectZ (m : MapTransform) (z : ℚ) : ℚ :=
  m.texH / 2 + m.dirZ * (m.rangeZ / m.scaleZ) * (z + m.offsetZ)

-- ============================================================
-- Concrete inputs used by counterexamples and witnesses
-- ============================================================

/-- A raw block whose slot 0 has identity hash 1 and cipher seed 1 (so its
decrypted species ordinal is nonzero) and whose slot 1 has hash 0. -/
def cbufOne : Nat → Nat := fun j =>
  if j = 0 then 1 else if j = 8 then 1 else 0

/-- A raw block whose slots 0 and 1 are both populated with identity hash 1
and cipher seed 1, and whose slot 2 has hash 0. -/
def cbufDup : Nat → Nat := fun j =>
  if j = 0 ∨ j = 496 then 1 else if j = 8 ∨ j = 504 then 1 else 0

/-- A one-entry catalog whose entry has identity hash 1. -/
def catOne : List SpawnerEntry :=
  [⟨1, 0, 0, 0, 0, ""⟩]

/-- The all-zero byte buffer. -/
def zeroBuf : Nat → Nat := fun _ => 0

/-- A buffer that is zero on the first 8 bytes and 1 afterwards. -/
def tailBuf : Nat → Nat := fun j => if j < 8 then 0 else 1

-- ============================================================
-- Basic facts
-- ============================================================

theorem ENTRY_SIZE_eq : ENTRY_SIZE = 496 := rfl

theorem MAX_SLOTS_eq : MAX_SLOTS = 10 := rfl

theorem g_t9_length : g_t9.length = 109 := rfl

theorem g_blockPos_length : g_blockPos.length = 128 := rfl

theorem svOf_lt (ec : Nat) : svOf ec < 32 :=
  Nat.mod_lt _ (by norm_num)

theorem blockOrder_lt (sv : Nat) (hsv : sv < 32) (b : Nat) (hb : b < 4) :
    blockOrder sv b < 4 := by
  have h : ∀ sv < 32, ∀ b < 4, blockOrder sv b < 4 := by decide
  exact h sv hsv b hb

theorem invBlockOrder_blockOrder (sv : Nat) (hsv : sv < 32) (b : Nat) (hb : b < 4) :
    invBlockOrder sv (blockOrder sv b) = b := by
  have h : ∀ sv < 32, ∀ b < 4, invBlockOrder sv (blockOrder sv b) = b := by decide
  exact h sv hsv b hb

theorem xorWords_header (sd c : Nat) (d : Nat → Nat) (i : Nat) (h : i < 8) :
    xorWords sd c d i = d i := by
  unfold xorWords
  rw [if_neg]
  omega

theorem unshuffle_header (sv : Nat) (d : Nat → Nat) (i : Nat) (h : i < 8) :
    unshuffle sv d i = d i := by
  unfold unshuffle
  rw [if_neg]
  omega

theorem shuffleBlocks_header (sv : Nat) (d : Nat → Nat) (i : Nat) (h : i < 8) :
    shuffleBlocks sv d i = d i := by
  unfold shuffleBlocks
  rw [if_neg]
  omega

-- ============================================================
-- C10: the cipher preserves the 8-byte header
-- ============================================================

/-- C10: for every input buffer and length, `decryptPA9` leaves the first 8
bytes (4-byte seed, 2-byte sanity, 2-byte checksum) unchanged: the keystream
XOR starts at byte 8 and the unshuffle writes only bytes 8 through 327. -/
theorem decryptPA9_preserves_header (d : Nat → Nat) (len i : Nat) (h : i < 8) :
    decryptPA9 d len i = d i := by
  simp only [decryptPA9]
  rw [unshuffle_header _ _ _ h, xorWords_header _ _ _ _ h]

/-- Witness for C10 at a concrete buffer and header byte. -/
theorem decryptPA9_preserves_header_witness : decryptPA9 tailBuf 344 3 = 0 :=
  decryptPA9_preserves_header tailBuf 344 3 (by decide)

-- ============================================================
-- C7: the map projection formula
-- ============================================================

/-- C7: for every map definition and world coordinates, `convertX` and
`convertZ` compute exactly the spec formula
`imageWidth/2 + direction * (range/scale) * (world + offset)`
(per axis, with the parameters of the map held fixed). -/
theorem mapTransform_matches_spec (m : MapTransform) (x z : ℚ) :
    m.convertX x = specProjectX m x ∧ m.convertZ z = specProjectZ m z := by
  constructor
  · unfold MapTransform.convertX specProjectX
    ring
  · unfold MapTransform.convertZ specProjectZ
    ring

-- ============================================================
-- C5: the species resolver window
-- ============================================================

theorem g_t9_bounds : ∀ idx, idx < 109 → -68 ≤ g_t9.getD idx 0 ∧ g_t9.getD idx 0 ≤ 65 := by
  decide

/-- C5: for every u16 internal ordinal `n`, `getNational9` returns
`n + g_t9[n - 917]` when `917 ≤ n < 1026` (the table has 109 entries), and
returns `n` unchanged outside that window. -/
theorem getNational9_window_spec (n : Nat) (hn : n < 65536) :
    ((917 ≤ n ∧ n < 1026) →
      (getNational9 n : Int) = (n : Int) + g_t9.getD (n - 917) 0) ∧
    ((n < 917 ∨ 1026 ≤ n) → getNational9 n = n) := by
  constructor
  · rintro ⟨h1, h2⟩
    have hidx : n - 917 < 109 := by omega
    obtain ⟨hlo, hhi⟩ := g_t9_bounds (n - 917) hidx
    unfold getNational9
    rw [if_neg]
    · unfold u16ofInt
      have hge : (0 : Int) ≤ (n : Int) + g_t9.getD (n - 917) 0 := by
        have : (917 : Int) ≤ (n : Int) := by exact_mod_cast h1
        omega
      have hlt : (n : Int) + g_t9.getD (n - 917) 0 < 65536 := by
        have : (n : Int) < 1026 := by exact_mod_cast h2
        omega
      rw [Int.emod_eq_of_lt hge hlt, Int.toNat_of_nonneg hge]
    · rw [g_t9_length]
      omega
  · intro h
    unfold getNational9
    rw [if_pos]
    rw [g_t9_length]
    omega

/-- Witness for C5: `resolve(920) = 920 + table[3]` (= 919). -/
theorem getNational9_window_spec_witness :
    (getNational9 920 : Int) = ((920 : Nat) : Int) + g_t9.getD (920 - 917) 0 :=
  (getNational9_window_spec 920 (by decide)).1 ⟨by decide, by decide⟩

-- ============================================================
-- C8: structure of the permutation table
-- ============================================================

/-- C8: rows 24-31 of the permutation table duplicate rows 0-7 entrywise,
so the unshuffle phase behaves identically for selector `sv` and `sv - 24`;
rows 0-23 are pairwise distinct permutations of {0,1,2,3}. -/
theorem blockPos_structure :
    (∀ sv, 24 ≤ sv → sv < 32 →
      (∀ b, b < 4 → blockOrder sv b = blockOrder (sv - 24) b) ∧
      ∀ (d : Nat → Nat) (i : Nat), unshuffle sv d i = unshuffle (sv - 24) d i) ∧
    (∀ s1, s1 < 24 → ∀ s2, s2 < 24 → s1 ≠ s2 →
      ∃ b, b < 4 ∧ blockOrder s1 b ≠ blockOrder s2 b) ∧
    (∀ sv, sv < 24 → ∀ k, k < 4 → ∃ b, b < 4 ∧ blockOrder sv b = k) := by
  refine ⟨?_, ?_, ?_⟩
  · intro sv h1 h2
    have hrow : ∀ b, b < 4 → blockOrder sv b = blockOrder (sv - 24) b := by
      have hdup : ∀ s, s < 8 → ∀ b, b < 4 → blockOrder (s + 24) b = blockOrder s b := by
        decide
      intro b hb
      have h := hdup (sv - 24) (by omega) b hb
      have e : sv - 24 + 24 = sv := by omega
      rwa [e] at h
    refine ⟨hrow, ?_⟩
    intro d i
    unfold unshuffle
    by_cases h : 8 ≤ i ∧ i < 328
    · rw [if_pos h, if_pos h, hrow ((i - 8) / 80) (by omega)]
    · rw [if_neg h, if_neg h]
  · decide
  · decide

/-- Witness for C8: row 24 equals row 0 at entry 1. -/
theorem blockPos_structure_witness : blockOrder 24 1 = blockOrder 0 1 :=
  (blockPos_structure.1 24 (by decide) (by decide)).1 1 (by decide)

-- ============================================================
-- C6: the cipher round-trip
-- ============================================================

theorem xorWords_even (sd c : Nat) (d : Nat → Nat) (w : Nat) (hw : w < c) :
    xorWords sd c d (8 + 2 * w) =
      (readU16 d (8 + 2 * w) ^^^ keyWord sd w) % 256 := by
  unfold xorWords
  rw [if_pos ⟨by omega, by omega⟩]
  have e1 : (8 + 2 * w - 8) / 2 = w := by omega
  have e2 : (8 + 2 * w - 8) % 2 = 0 := by omega
  rw [e2, if_pos rfl, e1]

theorem xorWords_odd (sd c : Nat) (d : Nat → Nat) (w : Nat) (hw : w < c) :
    xorWords sd c d (8 + 2 * w + 1) =
      (readU16 d (8 + 2 * w) ^^^ keyWord sd w) / 256 := by
  unfold xorWords
  rw [if_pos ⟨by omega, by omega⟩]
  have e1 : (8 + 2 * w + 1 - 8) / 2 = w := by omega
  have e2 : (8 + 2 * w + 1 - 8) % 2 = 1 := by omega
  rw [e2, e1]
  norm_num

theorem readU16_xorWords (sd c : Nat) (d : Nat → Nat) (w : Nat) (hw : w < c) :
    readU16 (xorWords sd c d) (8 + 2 * w) =
      readU16 d (8 + 2 * w) ^^^ keyWord sd w := by
  have he := xorWords_even sd c d w hw
  have ho := xorWords_odd sd c d w hw
  unfold readU16
  unfold readU16 at he ho
  rw [he, ho]
  exact Nat.mod_add_div _ _

theorem xorWords_involution (sd c : Nat) (d : Nat → Nat) (hd : ∀ i, d i < 256) (i : Nat) :
    xorWords sd c (xorWords sd c d) i = d i := by
  by_cases h : 8 ≤ i ∧ i < 8 + 2 * c
  · have hw : (i - 8) / 2 < c := by omega
    have hread := readU16_xorWords sd c d ((i - 8) / 2) hw
    by_cases hp : (i - 8) % 2 = 0
    · have hi : i = 8 + 2 * ((i - 8) / 2) := by omega
      rw [hi, xorWords_even sd c _ _ hw, hread, Nat.xor_assoc, Nat.xor_self,
        Nat.xor_zero]
      unfold readU16
      rw [Nat.add_mul_mod_self_left]
      exact Nat.mod_eq_of_lt (hd _)
    · have hi : i = 8 + 2 * ((i - 8) / 2) + 1 := by omega
      rw [hi, xorWords_odd sd c _ _ hw, hread, Nat.xor_assoc, Nat.xor_self,
        Nat.xor_zero]
      unfold readU16
      rw [Nat.add_mul_div_left _ _ (by norm_num : 0 < 256)]
      rw [Nat.div_eq_of_lt (hd _)]
      omega
  · unfold xorWords
    rw [if_neg h, if_neg h]

theorem shuffleBlocks_bytes (sv : Nat) (x : Nat → Nat) (hx : ∀ i, x i < 256) (i : Nat) :
    shuffleBlocks sv x i < 256 := by
  unfold shuffleBlocks
  by_cases h : 8 ≤ i ∧ i < 328
  · rw [if_pos h]
    exact hx _
  · rw [if_neg h]
    exact hx _

theorem unshuffle_shuffleBlocks (sv : Nat) (hsv : sv < 32) (x : Nat → Nat) (i : Nat) :
    unshuffle sv (shuffleBlocks sv x) i = x i := by
  unfold unshuffle shuffleBlocks
  by_cases h : 8 ≤ i ∧ i < 328
  · rw [if_pos h]
    have hb : (i - 8) / 80 < 4 := by omega
    have hbo : blockOrder sv ((i - 8) / 80) < 4 := blockOrder_lt sv hsv _ hb
    rw [if_pos ⟨by omega, by omega⟩]
    have e1 : (8 + blockOrder sv ((i - 8) / 80) * 80 + (i - 8) % 80 - 8) / 80 =
        blockOrder sv ((i - 8) / 80) := by omega
    have e2 : (8 + blockOrder sv ((i - 8) / 80) * 80 + (i - 8) % 80 - 8) % 80 =
        (i - 8) % 80 := by omega
    rw [e1, e2, invBlockOrder_blockOrder sv hsv _ hb]
    congr 1
    omega
  · rw [if_neg h, if_neg h]

/-- C6: the entry cipher is invertible — for every byte buffer `x` of the
0x158-byte layout, encrypting (shuffle the four post-header blocks by the
permutation selected by bits 13-17 of the seed, then XOR the LCRNG
keystream of that seed) and then applying `decryptPA9` restores `x`. -/
theorem decryptPA9_encryptPA9 (x : Nat → Nat) (hx : ∀ i, x i < 256) :
    decryptPA9 (encryptPA9 x 344) 344 = x := by
  have hec : readU32 (encryptPA9 x 344) 0 = readU32 x 0 := by
    simp only [encryptPA9]
    unfold readU32
    rw [xorWords_header _ _ _ 0 (by norm_num), xorWords_header _ _ _ 1 (by norm_num),
      xorWords_header _ _ _ 2 (by norm_num), xorWords_header _ _ _ 3 (by norm_num),
      shuffleBlocks_header _ _ 0 (by norm_num), shuffleBlocks_header _ _ 1 (by norm_num),
      shuffleBlocks_header _ _ 2 (by norm_num), shuffleBlocks_header _ _ 3 (by norm_num)]
  funext i
  simp only [decryptPA9, hec]
  simp only [encryptPA9]
  have hinv : xorWords (readU32 x 0) ((344 - 8) / 2)
      (xorWords (readU32 x 0) ((344 - 8) / 2) (shuffleBlocks (svOf (readU32 x 0)) x)) =
      shuffleBlocks (svOf (readU32 x 0)) x :=
    funext (xorWords_involution _ _ _ (shuffleBlocks_bytes _ x hx))
  rw [hinv]
  exact unshuffle_shuffleBlocks _ (svOf_lt _) x i

/-- Witness for C6: round trip on the all-zero buffer. -/
theorem decryptPA9_encryptPA9_witness :
    decryptPA9 (encryptPA9 zeroBuf 344) 344 = zeroBuf :=
  decryptPA9_encryptPA9 zeroBuf (fun i => by unfold zeroBuf; omega)

-- ============================================================
-- The decode loop as first-occurrence dedup of the filtered slot list
-- ============================================================

theorem decodeSlots_eq_dedup (s : List SpawnerEntry) (buf : Nat → Nat) :
    ∀ n i acc, decodeSlots s buf n i acc =
      dedupByHash acc ((rawSlots buf n i).filter (fun r => (findSpawner s r.hash).isSome)) := by
  intro n
  induction n with
  | zero =>
    intro i acc
    rfl
  | succ n ih =>
    intro i acc
    by_cases hterm : readU64 buf i = 0 ∨ readU64 buf i = TERMINATOR_HASH
    · simp only [decodeSlots, rawSlots, if_pos hterm]
      rfl
    · by_cases hspec : specAt buf i = 0
      · simp only [decodeSlots, rawSlots, if_neg hterm, if_pos hspec]
        exact ih _ _
      · cases hfs : findSpawner s (readU64 buf i) with
        | none =>
          simp only [decodeSlots, rawSlots, if_neg hterm, if_neg hspec, hfs,
            Option.isNone_none, if_pos, List.filter_cons, Option.isSome_none,
            Bool.false_eq_true, if_false]
          exact ih _ _
        | some sp =>
          by_cases hdup : acc.any (fun e => e.hash == readU64 buf i) = true
          · simp only [decodeSlots, rawSlots, if_neg hterm, if_neg hspec, hfs,
              Option.isNone_some, Bool.false_eq_true, if_false, hdup, if_true,
              List.filter_cons, Option.isSome_some, dedupByHash]
            rw [ih]
          · simp only [decodeSlots, rawSlots, if_neg hterm, if_neg hspec, hfs,
              Option.isNone_some, Bool.false_eq_true, if_false, hdup,
              List.filter_cons, Option.isSome_some, if_true, dedupByHash]
            rw [ih]

theorem dedupByHash_split : ∀ (l acc : List ShinyEntry),
    ∃ t, dedupByHash acc l = acc ++ t ∧ List.Sublist t l := by
  intro l
  induction l with
  | nil =>
    intro acc
    exact ⟨[], by simp [dedupByHash], List.nil_sublist _⟩
  | cons r rs ih =>
    intro acc
    by_cases hdup : (acc.any fun e => e.hash == r.hash) = true
    · obtain ⟨t, ht, hs⟩ := ih acc
      refine ⟨t, ?_, hs.cons r⟩
      rw [show dedupByHash acc (r :: rs) = dedupByHash acc rs from by
        simp [dedupByHash, hdup]]
      exact ht
    · obtain ⟨t, ht, hs⟩ := ih (acc ++ [r])
      refine ⟨r :: t, ?_, hs.cons₂ r⟩
      rw [show dedupByHash acc (r :: rs) = dedupByHash (acc ++ [r]) rs from by
        simp [dedupByHash, hdup]]
      rw [ht, List.append_assoc]
      rfl

theorem rawSlots_length_le (buf : Nat → Nat) : ∀ n i, (rawSlots buf n i).length ≤ n := by
  intro n
  induction n with
  | zero => intro i; simp [rawSlots]
  | succ n ih =>
    intro i
    by_cases hterm : readU64 buf i = 0 ∨ readU64 buf i = TERMINATOR_HASH
    · simp [rawSlots, if_pos hterm]
    · by_cases hspec : specAt buf i = 0
      · simp only [rawSlots, if_neg hterm, if_pos hspec]
        exact le_trans (ih _) (Nat.le_succ n)
      · simp only [rawSlots, if_neg hterm, if_neg hspec, List.length_cons]
        exact Nat.succ_le_succ (ih _)

/-- C3: for every catalog and raw block, the decode pass produces at most
MAX_SLOTS (10) records, and the output is a sublist of the slot-ordered
record candidates — records appear in the relative order of their
originating slots, with terminated, duplicate and empty slots elided. -/
theorem readShinyStash_bounded_ordered (s : List SpawnerEntry) (buf : Nat → Nat) :
    List.Sublist (readShinyStash s buf) (rawSlots buf MAX_SLOTS 0) ∧
    (readShinyStash s buf).length ≤ MAX_SLOTS := by
  have hm := decodeSlots_eq_dedup s buf MAX_SLOTS 0 []
  obtain ⟨t, ht, hs⟩ := dedupByHash_split
    ((rawSlots buf MAX_SLOTS 0).filter (fun r => (findSpawner s r.hash).isSome)) []
  have heq : readShinyStash s buf = t := by
    rw [readShinyStash, hm, ht]
    rfl
  have hsub : List.Sublist (readShinyStash s buf) (rawSlots buf MAX_SLOTS 0) := by
    rw [heq]
    exact hs.trans (List.filter_sublist _)
  exact ⟨hsub, le_trans hsub.length_le (rawSlots_length_le buf MAX_SLOTS 0)⟩

-- ============================================================
-- First-occurrence and uniqueness lemmas
-- ============================================================

theorem findHash_nil (h : Nat) : findHash [] h = none := rfl

theorem findHash_cons (r : ShinyEntry) (rs : List ShinyEntry) (h : Nat) :
    findHash (r :: rs) h = if r.hash == h then some r else findHash rs h := by
  by_cases hr : (r.hash == h) = true
  · rw [if_pos hr]
    exact List.find?_cons_of_pos _ hr
  · rw [if_neg hr]
    exact List.find?_cons_of_neg _ (by simpa using hr)

theorem findHash_append (l1 l2 : List ShinyEntry) (h : Nat) :
    findHash (l1 ++ l2) h = orFind (findHash l1 h) (findHash l2 h) := by
  induction l1 with
  | nil => rfl
  | cons r rs ih =>
    rw [List.cons_append, findHash_cons, findHash_cons]
    by_cases hr : (r.hash == h) = true
    · rw [if_pos hr, if_pos hr]
      rfl
    · rw [if_neg hr, if_neg hr, ih]

theorem findHash_dedupByHash (h : Nat) : ∀ (l acc : List ShinyEntry),
    findHash (dedupByHash acc l) h = orFind (findHash acc h) (findHash l h) := by
  intro l
  induction l with
  | nil =>
    intro acc
    rw [show dedupByHash acc [] = acc from rfl, findHash_nil]
    cases findHash acc h <;> rfl
  | cons r rs ih =>
    intro acc
    by_cases hdup : (acc.any fun e => e.hash == r.hash) = true
    · rw [show dedupByHash acc (r :: rs) = dedupByHash acc rs from by
        simp [dedupByHash, hdup], ih, findHash_cons]
      by_cases hr : (r.hash == h) = true
      · cases hacc : findHash acc h with
        | some e => rfl
        | none =>
          exfalso
          obtain ⟨x, hx, hxr⟩ := List.any_eq_true.mp hdup
          have hnone := List.find?_eq_none.mp hacc x hx
          apply hnone
          rw [beq_iff_eq] at hxr hr ⊢
          rw [hxr, hr]
      · rw [if_neg hr]
    · rw [show dedupByHash acc (r :: rs) = dedupByHash (acc ++ [r]) rs from by
        simp [dedupByHash, hdup], ih, findHash_append, findHash_cons]
      cases hacc : findHash acc h with
      | some e => rfl
      | none =>
        by_cases hr : (r.hash == h) = true
        · rw [if_pos hr]
          simp [findHash_cons, findHash_nil, hr, orFind]
        · rw [if_neg hr]
          simp [findHash_cons, findHash_nil, hr, orFind]

theorem dedupByHash_pairwise : ∀ (l acc : List ShinyEntry),
    acc.Pairwise (fun a b => a.hash ≠ b.hash) →
    (dedupByHash acc l).Pairwise (fun a b => a.hash ≠ b.hash) := by
  intro l
  induction l with
  | nil =>
    intro acc hacc
    simpa [dedupByHash] using hacc
  | cons r rs ih =>
    intro acc hacc
    by_cases hdup : (acc.any fun e => e.hash == r.hash) = true
    · rw [show dedupByHash acc (r :: rs) = dedupByHash acc rs from by
        simp [dedupByHash, hdup]]
      exact ih acc hacc
    · rw [show dedupByHash acc (r :: rs) = dedupByHash (acc ++ [r]) rs from by
        simp [dedupByHash, hdup]]
      apply ih
      rw [List.pairwise_append]
      refine ⟨hacc, List.pairwise_singleton _ _, ?_⟩
      intro a ha b hb
      rw [List.mem_singleton] at hb
      subst hb
      intro hEq
      apply hdup
      rw [List.any_eq_true]
      exact ⟨a, ha, by rw [beq_iff_eq]; exact hEq⟩

/-- C4 (amended): the decode pass never emits two records with the same
identity hash, and for every hash the record emitted (if any) is exactly the
first record of the slot-ordered, catalog-filtered candidate list with that
hash — the one built from the earliest reached populated slot; later slots
with an already-emitted hash are skipped without stopping iteration (every
distinct eligible hash still reaches the output). -/
theorem readShinyStash_first_occurrence (s : List SpawnerEntry) (buf : Nat → Nat) (h : Nat) :
    (readShinyStash s buf).Pairwise (fun a b => a.hash ≠ b.hash) ∧
    findHash (readShinyStash s buf) h = findHash (eligibleRecords s buf) h := by
  have hm := decodeSlots_eq_dedup s buf MAX_SLOTS 0 []
  constructor
  · rw [readShinyStash, hm]
    exact dedupByHash_pairwise _ [] List.Pairwise.nil
  · rw [readShinyStash, hm, findHash_dedupByHash]
    rfl

/-- C4 counterexample: slots 0 and 1 of `cbufDup` are populated (nonzero,
non-terminator hash; nonzero decoded species ordinal) and share identity
hash 1, yet with a catalog holding no entry for that hash the decode pass
returns no record at all for it — not exactly one. -/
theorem readShinyStash_dup_counterexample :
    readU64 cbufDup 0 = 1 ∧ readU64 cbufDup 496 = 1 ∧
    specAt cbufDup 0 ≠ 0 ∧ specAt cbufDup 496 ≠ 0 ∧
    readShinyStash [] cbufDup = [] := by
  refine ⟨by decide, by decide, by decide, by decide, by decide⟩

-- ============================================================
-- C1: records with no catalog match
-- ============================================================

theorem dedupByHash_mem : ∀ (l acc : List ShinyEntry) (e : ShinyEntry),
    e ∈ dedupByHash acc l → e ∈ acc ∨ e ∈ l := by
  intro l acc e he
  obtain ⟨t, ht, hs⟩ := dedupByHash_split l acc
  rw [ht, List.mem_append] at he
  rcases he with h | h
  · exact Or.inl h
  · exact Or.inr (hs.subset h)

/-- C1 (amended): a decoded record whose identity hash matches no catalog
entry is dropped from the output record list of the decode pass itself, not
merely from the display set — every record in the output has a catalog
match (the "unknown location" display state is unreachable from decode
output). -/
theorem readShinyStash_requires_match (s : List SpawnerEntry) (buf : Nat → Nat)
    (e : ShinyEntry) (he : e ∈ readShinyStash s buf) :
    (findSpawner s e.hash).isSome = true := by
  have hm := decodeSlots_eq_dedup s buf MAX_SLOTS 0 []
  rw [readShinyStash, hm] at he
  rcases dedupByHash_mem _ [] e he with h0 | h1
  · exact absurd h0 (List.not_mem_nil e)
  · exact (List.mem_filter.mp h1).2

/-- Witness for the amended C1 theorem at a concrete matched record. -/
theorem readShinyStash_requires_match_witness :
    (findSpawner catOne (1 : Nat)).isSome = true :=
  readShinyStash_requires_match catOne cbufOne ⟨1, 16838, 16838⟩ (by decide)

/-- C1 counterexample: slot 0 of `cbufOne` decodes to a record with hash 1
and nonzero species ordinal, the (empty) catalog has no entry for that
hash, and the output list of the decode pass omits the record entirely. -/
theorem readShinyStash_unmatched_counterexample :
    readU64 cbufOne 0 = 1 ∧ specAt cbufOne 0 ≠ 0 ∧
    findSpawner [] (readU64 cbufOne 0) = none ∧
    readShinyStash [] cbufOne = [] := by
  refine ⟨by decide, by decide, by decide, by decide⟩

-- ============================================================
-- Byte-locality of the decode pass (towards C2)
-- ============================================================

theorem decodeSlots_terminal (s : List SpawnerEntry) (buf : Nat → Nat) (n i : Nat)
    (acc : List ShinyEntry) (h : readU64 buf i = 0 ∨ readU64 buf i = TERMINATOR_HASH) :
    decodeSlots s buf (n + 1) i acc = acc := by
  simp only [decodeSlots, if_pos h]

theorem readU64_congr (b1 b2 : Nat → Nat) (i : Nat)
    (h : ∀ j, i ≤ j → j < i + 8 → b1 j = b2 j) : readU64 b1 i = readU64 b2 i := by
  unfold readU64
  rw [h i (by omega) (by omega), h (i+1) (by omega) (by omega),
    h (i+2) (by omega) (by omega), h (i+3) (by omega) (by omega),
    h (i+4) (by omega) (by omega), h (i+5) (by omega) (by omega),
    h (i+6) (by omega) (by omega), h (i+7) (by omega) (by omega)]

theorem xorWords_congr (sd c : Nat) (d1 d2 : Nat → Nat)
    (hag : ∀ j, j < 344 → d1 j = d2 j) (t : Nat) (ht : t < 344) :
    xorWords sd c d1 t = xorWords sd c d2 t := by
  unfold xorWords
  by_cases h : 8 ≤ t ∧ t < 8 + 2 * c
  · rw [if_pos h, if_pos h]
    unfold readU16
    rw [hag (8 + 2 * ((t - 8) / 2)) (by omega), hag (8 + 2 * ((t - 8) / 2) + 1) (by omega)]
  · rw [if_neg h, if_neg h, hag t ht]

theorem decryptPA9_congr (d1 d2 : Nat → Nat) (hag : ∀ j, j < 344 → d1 j = d2 j)
    (i : Nat) (hi : i < 344) :
    decryptPA9 d1 344 i = decryptPA9 d2 344 i := by
  have hec : readU32 d1 0 = readU32 d2 0 := by
    unfold readU32
    simp only [Nat.zero_add]
    rw [hag 0 (by norm_num), hag 1 (by norm_num), hag 2 (by norm_num), hag 3 (by norm_num)]
  simp only [decryptPA9, hec]
  unfold unshuffle
  by_cases h : 8 ≤ i ∧ i < 328
  · rw [if_pos h, if_pos h]
    have hb : blockOrder (svOf (readU32 d2 0)) ((i - 8) / 80) < 4 :=
      blockOrder_lt _ (svOf_lt _) _ (by omega)
    exact xorWords_congr _ _ d1 d2 hag _ (by omega)
  · rw [if_neg h, if_neg h]
    exact xorWords_congr _ _ d1 d2 hag i (by omega)

theorem specAt_congr (b1 b2 : Nat → Nat) (i : Nat)
    (hag : ∀ j, j < 344 → b1 (i + 8 + j) = b2 (i + 8 + j)) :
    specAt b1 i = specAt b2 i := by
  simp only [specAt, PA9_DATA_OFFSET, PA9_SPECIES_OFF]
  unfold readU16
  rw [decryptPA9_congr (fun j => b1 (i + 8 + j)) (fun j => b2 (i + 8 + j))
      (fun j hj => hag j hj) 8 (by norm_num),
    decryptPA9_congr (fun j => b1 (i + 8 + j)) (fun j => b2 (i + 8 + j))
      (fun j hj => hag j hj) (8 + 1) (by norm_num)]

theorem decodeSlots_prefix (s : List SpawnerEntry) (b1 b2 : Nat → Nat) (k : Nat)
    (hag : ∀ j, j < 496 * k + 8 → b1 j = b2 j)
    (hterm : readU64 b1 (496 * k) = 0 ∨ readU64 b1 (496 * k) = TERMINATOR_HASH) :
    ∀ n m acc, m ≤ k →
      decodeSlots s b1 n (496 * m) acc = decodeSlots s b2 n (496 * m) acc := by
  intro n
  induction n with
  | zero =>
    intro m acc hm
    rfl
  | succ n ih =>
    intro m acc hm
    have hhash : readU64 b1 (496 * m) = readU64 b2 (496 * m) :=
      readU64_congr b1 b2 _ (fun j h1 h2 => hag j (by omega))
    by_cases ht : readU64 b1 (496 * m) = 0 ∨ readU64 b1 (496 * m) = TERMINATOR_HASH
    · rw [decodeSlots_terminal s b1 n _ acc ht,
        decodeSlots_terminal s b2 n _ acc (hhash ▸ ht)]
    · have hmk : m < k := by
        rcases Nat.lt_or_ge m k with hlt | hge
        · exact hlt
        · exfalso
          apply ht
          have hme : m = k := by omega
          rw [hme]
          exact hterm
      have hspec : specAt b1 (496 * m) = specAt b2 (496 * m) :=
        specAt_congr b1 b2 _ (fun j hj => hag _ (by omega))
      have hstep : 496 * m + ENTRY_SIZE = 496 * (m + 1) := by
        rw [ENTRY_SIZE_eq]
        ring
      simp only [decodeSlots]
      rw [← hhash, ← hspec]
      simp only [if_neg ht]
      by_cases hsp : specAt b1 (496 * m) = 0
      · simp only [if_pos hsp, hstep]
        exact ih (m + 1) acc (by omega)
      · simp only [if_neg hsp]
        by_cases hfs : (findSpawner s (readU64 b1 (496 * m))).isNone = true
        · simp only [if_pos hfs, hstep]
          exact ih (m + 1) acc (by omega)
        · simp only [if_neg hfs]
          by_cases hdup : (acc.any fun e => e.hash == readU64 b1 (496 * m)) = true
          · simp only [if_pos hdup, hstep]
            exact ih (m + 1) acc (by omega)
          · simp only [if_neg hdup, hstep]
            exact ih (m + 1) _ (by omega)

/-- C2: if the hash of the first slot is 0 or the terminator constant the decode
pass returns the empty list; and in general, iteration stops entirely at
the first terminal slot — two raw blocks that agree up to (and including)
the hash of a terminal slot decode identically, so the contents of all
later slots have no effect on the output. -/
theorem readShinyStash_terminator_stops :
    (∀ (s : List SpawnerEntry) (buf : Nat → Nat),
      readU64 buf 0 = 0 ∨ readU64 buf 0 = TERMINATOR_HASH →
      readShinyStash s buf = []) ∧
    (∀ (s : List SpawnerEntry) (b1 b2 : Nat → Nat) (k : Nat),
      (∀ j, j < ENTRY_SIZE * k + 8 → b1 j = b2 j) →
      readU64 b1 (ENTRY_SIZE * k) = 0 ∨ readU64 b1 (ENTRY_SIZE * k) = TERMINATOR_HASH →
      readShinyStash s b1 = readShinyStash s b2) := by
  constructor
  · intro s buf h
    exact decodeSlots_terminal s buf 9 0 [] h
  · intro s b1 b2 k hag hterm
    rw [ENTRY_SIZE_eq] at hag hterm
    exact decodeSlots_prefix s b1 b2 k hag hterm 10 0 [] (by omega)

/-- Witness for C2 at concrete buffers: the all-zero block decodes to the
empty list, and a block differing from it only after the first slot hash
decodes identically. -/
theorem readShinyStash_terminator_stops_witness :
    readShinyStash [] zeroBuf = [] ∧
    readShinyStash [] zeroBuf = readShinyStash [] tailBuf :=
  ⟨readShinyStash_terminator_stops.1 [] zeroBuf (Or.inl (by decide)),
   readShinyStash_terminator_stops.2 [] zeroBuf tailBuf 0
     (fun j hj => by
       rw [ENTRY_SIZE_eq] at hj
       unfold zeroBuf tailBuf
       rw [if_pos (by omega)])
     (Or.inl (by decide))⟩

-- ============================================================
-- C9: the raw block is never modified
-- ============================================================

theorem decodeSlotsSt_pure (s : List SpawnerEntry) :
    ∀ n (buf : Nat → Nat) i acc,
      decodeSlotsSt s n buf i acc = (decodeSlots s buf n i acc, buf) := by
  intro n
  induction n with
  | zero =>
    intro buf i acc
    rfl
  | succ n ih =>
    intro buf i acc
    simp only [decodeSlotsSt, decodeSlots, specAt, PA9_DATA_OFFSET, PA9_SPECIES_OFF]
    by_cases hterm : readU64 buf i = 0 ∨ readU64 buf i = TERMINATOR_HASH
    · simp only [if_pos hterm]
    · simp only [if_neg hterm]
      by_cases hspec :
          readU16 (decryptPA9 (fun j => buf (i + 8 + j)) 0x158) 8 = 0
      · simp only [if_pos hspec]
        exact ih buf _ acc
      · simp only [if_neg hspec]
        by_cases hfs : (findSpawner s (readU64 buf i)).isNone = true
        · simp only [if_pos hfs]
          exact ih buf _ acc
        · simp only [if_neg hfs]
          by_cases hdup : (acc.any fun e => e.hash == readU64 buf i) = true
          · simp only [if_pos hdup]
            exact ih buf _ acc
          · simp only [if_neg hdup]
            exact ih buf _ _

/-- C9: the decode pass never modifies the raw block — the embedded
sub-block of each slot is copied into a transient buffer before decryption,
so the state-threaded decode returns the raw block exactly as given, and its only
effect is the returned record list (equal to the output of the pure decode). -/
theorem readShinyStashSt_frame (s : List SpawnerEntry) (buf : Nat → Nat) :
    readShinyStashSt s buf = (readShinyStash s buf, buf) :=
  decodeSlotsSt_pure s MAX_SLOTS buf 0 []
